import Mathlib

/-!
Verification of the HelenOS excerpt: the per-processor timeout queue
(`kernel/generic/src/time/timeout.c`), the IRQ top-half bytecode
interpreter (command set from `kernel/generic/include/ddi/irq.h`), and
the Ethernet address codec (`uspace/lib/inet/src/eth_addr.c`).

Machine integers are modelled as `Nat`; C pointers that are only
compared against NULL become `Option`; the per-processor doubly linked
list becomes a `List` of timeout identifiers together with a map from
identifier to the timeout structure's fields.
-/

/-! ## Timeout queue (`kernel/generic/src/time/timeout.c`)

A `timeout_t` holds the fields mutated by `timeout_register`,
`timeout_unregister` and `timeout_reinitialize`: the owning cpu
(`NULL`/absent when idle), the absolute deadline in ticks, the handler
pointer and the opaque argument.  The spinlock and the intrusive link
are not part of the sequential model; the link is represented by
membership of the timeout's identifier in the cpu's active list. -/

structure timeout_t where
  cpu : Option Unit
  deadline : Nat
  handler : Option Nat
  arg : Option Nat
deriving DecidableEq, Repr

/-- `timeout_reinitialize`: cpu := NULL, deadline := 0, handler := NULL,
arg := NULL (lines 66-73 of timeout.c). -/
def timeout_reinitialize : timeout_t :=
  { cpu := none, deadline := 0, handler := none, arg := none }

/-- Sequential state of one processor's timeout queue: the memory of all
timeout structures (indexed by identifier), the cpu's
`timeout_active_list` (identifiers, head first) and the cpu's
`current_clock_tick`. -/
structure TimeoutState where
  timeouts : Nat → timeout_t
  timeout_active_list : List Nat
  current_clock_tick : Nat

/-- Update the timeout memory at one identifier. -/
def updT (m : Nat → timeout_t) (i : Nat) (t : timeout_t) : Nat → timeout_t :=
  fun j => if j = i then t else m j

/-- The insertion loop of `timeout_register` (lines 117-137): walk the
active list, stop in front of the first entry whose deadline is strictly
greater than the new deadline (`timeout->deadline < target->deadline`),
and link the new timeout there (prepend when the walk stopped at the
head, append when it ran off the end). -/
def timeout_active_insert (m : Nat → timeout_t) (d : Nat) (tid : Nat) :
    List Nat → List Nat
  | [] => [tid]
  | cur :: rest =>
      if d < (m cur).deadline then tid :: cur :: rest
      else cur :: timeout_active_insert m d tid rest

/-- `timeout_register` (lines 100-141).  `us2ticks` is the processor's
microseconds-to-ticks conversion (external configuration).  The `none`
result models the fatal halt taken when `timeout->cpu` is non-NULL;
otherwise the cpu, deadline (`CPU->current_clock_tick + us2ticks(time)`),
handler and argument are stored and the timeout is linked into the
active list by the insertion loop. -/
def timeout_register (us2ticks : Nat → Nat) (s : TimeoutState)
    (tid time handler arg : Nat) : Option TimeoutState :=
  if (s.timeouts tid).cpu.isSome then
    none
  else
    let d := s.current_clock_tick + us2ticks time
    let m := updT s.timeouts tid
      { cpu := some (), deadline := d, handler := some handler, arg := some arg }
    some { s with
      timeouts := m,
      timeout_active_list := timeout_active_insert m d tid s.timeout_active_list }

/-- `timeout_unregister` (lines 152-189): when `timeout->cpu` is NULL
return `false` leaving everything untouched; otherwise unlink the
timeout from the owner's active list, reinitialize it and return
`true`. -/
def timeout_unregister (s : TimeoutState) (tid : Nat) : Bool × TimeoutState :=
  if (s.timeouts tid).cpu.isNone then
    (false, s)
  else
    (true, { s with
      timeout_active_list := s.timeout_active_list.erase tid,
      timeouts := updT s.timeouts tid timeout_reinitialize })

/-- `timeout_init` (lines 53-57) together with every timeout structure
being `timeout_initialize`d: empty active list, all timeouts idle. -/
def timeout_init_state : TimeoutState :=
  { timeouts := fun _ => timeout_reinitialize,
    timeout_active_list := [],
    current_clock_tick := 0 }

/-- One call arriving at the queue: a `timeout_register`, a
`timeout_unregister`, or the external clock source publishing a new
`current_clock_tick` value. -/
inductive TimeoutOp where
  | reg (tid time handler arg : Nat)
  | unreg (tid : Nat)
  | clockTick (tick : Nat)
deriving DecidableEq, Repr

/-- Execute one call; `none` models the fatal halt inside
`timeout_register`. -/
def timeoutStep (us2ticks : Nat → Nat) (s : TimeoutState) :
    TimeoutOp → Option TimeoutState
  | .reg tid time handler arg => timeout_register us2ticks s tid time handler arg
  | .unreg tid => some (timeout_unregister s tid).2
  | .clockTick tick => some { s with current_clock_tick := tick }

/-- Run a sequence of calls from the initialized empty queue. -/
def runTimeoutOps (us2ticks : Nat → Nat) (ops : List TimeoutOp) : Option TimeoutState :=
  ops.foldl (fun acc op => acc.bind (fun s => timeoutStep us2ticks s op))
    (some timeout_init_state)

/-- The active list is sorted ascending by deadline. -/
def activeSorted (s : TimeoutState) : Prop :=
  s.timeout_active_list.Pairwise
    (fun a b => (s.timeouts a).deadline ≤ (s.timeouts b).deadline)

/-- Full queue invariant: no identifier is linked twice, an identifier
is linked exactly when its timeout has an owning cpu, and the list is
sorted ascending by deadline. -/
def TimeoutInv (s : TimeoutState) : Prop :=
  s.timeout_active_list.Nodup ∧
  (∀ tid, tid ∈ s.timeout_active_list ↔ (s.timeouts tid).cpu.isSome) ∧
  activeSorted s

/-! ## Ethernet addresses (`uspace/lib/inet/src/eth_addr.c`) -/

def ETH_ADDR_SIZE : Nat := 6

/-- `eth_addr_encode` (lines 44-54): `bp[i] = (a >> (40 - 8 * i)) & 0xff`
for `i = 0 .. ETH_ADDR_SIZE - 1`. -/
def eth_addr_encode (a : Nat) : List Nat :=
  (List.range ETH_ADDR_SIZE).map (fun i => (a >>> (40 - 8 * i)) &&& 0xff)

/-- `eth_addr_decode` (lines 56-67): `a` starts at 0 and accumulates
`a |= (uint64_t) bp[i] << (40 - 8 * i)` for `i = 0 .. ETH_ADDR_SIZE - 1`. -/
def eth_addr_decode (bp : List Nat) : Nat :=
  (List.range ETH_ADDR_SIZE).foldl
    (fun a i => a ||| (bp.getD i 0 <<< (40 - 8 * i))) 0

/-! ## IRQ top-half interpreter

The command set, command structure and ownership outcome are translated
from `kernel/generic/include/ddi/irq.h` (lines 49-140).  The kernel
function that executes a validated program at interrupt priority is not
part of the excerpt, so its execution semantics is modelled from the
spec (see `ipc_irq_top_half`). -/

/-- `irq_cmd_type` (irq.h lines 49-120). -/
inductive irq_cmd_type where
  | CMD_PIO_READ_8
  | CMD_PIO_READ_16
  | CMD_PIO_READ_32
  | CMD_PIO_WRITE_8
  | CMD_PIO_WRITE_16
  | CMD_PIO_WRITE_32
  | CMD_PIO_WRITE_A_8
  | CMD_PIO_WRITE_A_16
  | CMD_PIO_WRITE_A_32
  | CMD_MEM_READ_8
  | CMD_MEM_READ_16
  | CMD_MEM_READ_32
  | CMD_MEM_WRITE_8
  | CMD_MEM_WRITE_16
  | CMD_MEM_WRITE_32
  | CMD_MEM_WRITE_A_8
  | CMD_MEM_WRITE_A_16
  | CMD_MEM_WRITE_A_32
  | CMD_BTEST
  | CMD_PREDICATE
  | CMD_ACCEPT
  | CMD_DECLINE
  | CMD_LAST
deriving DecidableEq, Repr

/-- `irq_cmd_t` (irq.h lines 122-128): opcode, pre-validated address,
immediate value, source register index, destination register index. -/
structure irq_cmd_t where
  cmd : irq_cmd_type
  addr : Nat
  value : Nat
  srcarg : Nat
  dstarg : Nat
deriving DecidableEq, Repr

/-- `irq_code_t` (irq.h lines 130-133): an immutable ordered sequence of
commands; `cmdcount` is the length of that sequence. -/
structure irq_code_t where
  cmds : List irq_cmd_t
deriving DecidableEq, Repr

def irq_code_t.cmdcount (code : irq_code_t) : Nat :=
  code.cmds.length

/-- `irq_ownership_t` (irq.h lines 137-140). -/
inductive irq_ownership_t where
  | IRQ_DECLINE
  | IRQ_ACCEPT
deriving DecidableEq, Repr

/-- The device side seen by the interpreter: what a read of the given
width (in bytes) at the given pre-validated address yields, for the I/O
space and for the memory space. -/
structure IrqEnv where
  pio_read : Nat → Nat → Nat
  mem_read : Nat → Nat → Nat

/-- Result of one top-half run: the Accept/Decline outcome, the final
scratch registers (which double as the outgoing notification payload),
the writes performed (address, value) in reverse order of execution, and
the trace of executed command indices in execution order. -/
structure TopHalfResult where
  ownership : irq_ownership_t
  scratch : Nat → Nat
  writes : List (Nat × Nat)
  trace : List Nat

/-- Update one scratch register. -/
def updS (scratch : Nat → Nat) (i v : Nat) : Nat → Nat :=
  fun j => if j = i then v else scratch j

/-- Record that command `pc` executed (and possibly wrote `w`). -/
def traceCons (pc : Nat) (w : Option (Nat × Nat)) (r : TopHalfResult) : TopHalfResult :=
  { r with
    writes := match w with | none => r.writes | some p => p :: r.writes,
    trace := pc :: r.trace }

/-- Modelled from the spec: §4.4 Interpreter.  The kernel's top-half
execution function is not part of the excerpt (only its command set in
`ddi/irq.h` and driver-supplied programs such as `ne2k_cmds` are), so
the per-opcode semantics follows the spec's words: reads load the
addressed location into `scratch[dst]`, writes store the immediate
`value` (or `scratch[src]` for the register variants) truncated to the
access width, `CMD_BTEST` stores `scratch[src] & value` into
`scratch[dst]`, `CMD_PREDICATE` skips the next `value` commands when
`scratch[src]` is zero and otherwise continues with the next command,
and `CMD_ACCEPT`/`CMD_DECLINE` terminate with the corresponding
outcome.  Running past the end of the program declines.  `fuel` only
bounds the recursion; `ipc_irq_top_half` supplies enough of it that the
fuel-exhausted branch is never reached. -/
def topHalfGo (env : IrqEnv) (cmds : List irq_cmd_t) :
    Nat → (Nat → Nat) → Nat → TopHalfResult
  | 0, scratch, _ =>
      { ownership := .IRQ_DECLINE, scratch := scratch, writes := [], trace := [] }
  | fuel + 1, scratch, pc =>
      if h : pc < cmds.length then
        let c := cmds.get ⟨pc, h⟩
        match c.cmd with
        | .CMD_PIO_READ_8 =>
            traceCons pc none (topHalfGo env cmds fuel
              (updS scratch c.dstarg (env.pio_read 1 c.addr % 2 ^ 8)) (pc + 1))
        | .CMD_PIO_READ_16 =>
            traceCons pc none (topHalfGo env cmds fuel
              (updS scratch c.dstarg (env.pio_read 2 c.addr % 2 ^ 16)) (pc + 1))
        | .CMD_PIO_READ_32 =>
            traceCons pc none (topHalfGo env cmds fuel
              (updS scratch c.dstarg (env.pio_read 4 c.addr % 2 ^ 32)) (pc + 1))
        | .CMD_PIO_WRITE_8 =>
            traceCons pc (some (c.addr, c.value % 2 ^ 8))
              (topHalfGo env cmds fuel scratch (pc + 1))
        | .CMD_PIO_WRITE_16 =>
            traceCons pc (some (c.addr, c.value % 2 ^ 16))
              (topHalfGo env cmds fuel scratch (pc + 1))
        | .CMD_PIO_WRITE_32 =>
            traceCons pc (some (c.addr, c.value % 2 ^ 32))
              (topHalfGo env cmds fuel scratch (pc + 1))
        | .CMD_PIO_WRITE_A_8 =>
            traceCons pc (some (c.addr, scratch c.srcarg % 2 ^ 8))
              (topHalfGo env cmds fuel scratch (pc + 1))
        | .CMD_PIO_WRITE_A_16 =>
            traceCons pc (some (c.addr, scratch c.srcarg % 2 ^ 16))
              (topHalfGo env cmds fuel scratch (pc + 1))
        | .CMD_PIO_WRITE_A_32 =>
            traceCons pc (some (c.addr, scratch c.srcarg % 2 ^ 32))
              (topHalfGo env cmds fuel scratch (pc + 1))
        | .CMD_MEM_READ_8 =>
            traceCons pc none (topHalfGo env cmds fuel
              (updS scratch c.dstarg (env.mem_read 1 c.addr % 2 ^ 8)) (pc + 1))
        | .CMD_MEM_READ_16 =>
            traceCons pc none (topHalfGo env cmds fuel
              (updS scratch c.dstarg (env.mem_read 2 c.addr % 2 ^ 16)) (pc + 1))
        | .CMD_MEM_READ_32 =>
            traceCons pc none (topHalfGo env cmds fuel
              (updS scratch c.dstarg (env.mem_read 4 c.addr % 2 ^ 32)) (pc + 1))
        | .CMD_MEM_WRITE_8 =>
            traceCons pc (some (c.addr, c.value % 2 ^ 8))
              (topHalfGo env cmds fuel scratch (pc + 1))
        | .CMD_MEM_WRITE_16 =>
            traceCons pc (some (c.addr, c.value % 2 ^ 16))
              (topHalfGo env cmds fuel scratch (pc + 1))
        | .CMD_MEM_WRITE_32 =>
            traceCons pc (some (c.addr, c.value % 2 ^ 32))
              (topHalfGo env cmds fuel scratch (pc + 1))
        | .CMD_MEM_WRITE_A_8 =>
            traceCons pc (some (c.addr, scratch c.srcarg % 2 ^ 8))
              (topHalfGo env cmds fuel scratch (pc + 1))
        | .CMD_MEM_WRITE_A_16 =>
            traceCons pc (some (c.addr, scratch c.srcarg % 2 ^ 16))
              (topHalfGo env cmds fuel scratch (pc + 1))
        | .CMD_MEM_WRITE_A_32 =>
            traceCons pc (some (c.addr, scratch c.srcarg % 2 ^ 32))
              (topHalfGo env cmds fuel scratch (pc + 1))
        | .CMD_BTEST =>
            traceCons pc none (topHalfGo env cmds fuel
              (updS scratch c.dstarg (scratch c.srcarg &&& c.value)) (pc + 1))
        | .CMD_PREDICATE =>
            if scratch c.srcarg = 0 then
              traceCons pc none (topHalfGo env cmds fuel scratch (pc + 1 + c.value))
            else
              traceCons pc none (topHalfGo env cmds fuel scratch (pc + 1))
        | .CMD_ACCEPT =>
            { ownership := .IRQ_ACCEPT, scratch := scratch, writes := [], trace := [pc] }
        | .CMD_DECLINE =>
            { ownership := .IRQ_DECLINE, scratch := scratch, writes := [], trace := [pc] }
        | .CMD_LAST =>
            traceCons pc none (topHalfGo env cmds fuel scratch (pc + 1))
      else
        { ownership := .IRQ_DECLINE, scratch := scratch, writes := [], trace := [] }

/-- Modelled from the spec: run the whole program from its first
command.  The program counter advances by at least one on every step, so
`cmds.length` steps of fuel always suffice. -/
def ipc_irq_top_half (env : IrqEnv) (code : irq_code_t) (scratch : Nat → Nat) :
    TopHalfResult :=
  topHalfGo env code.cmds code.cmds.length scratch 0

/-- Modelled from the spec: run from an arbitrary command index, with
exactly the fuel the remaining program needs. -/
def topHalfFrom (env : IrqEnv) (cmds : List irq_cmd_t) (scratch : Nat → Nat)
    (pc : Nat) : TopHalfResult :=
  topHalfGo env cmds (cmds.length - pc) scratch pc

/-! ## Timeout queue lemmas -/

theorem mem_timeout_active_insert (m : Nat → timeout_t) (d tid : Nat) :
    ∀ l x, x ∈ timeout_active_insert m d tid l ↔ x = tid ∨ x ∈ l := by
  intro l x
  induction l with
  | nil => simp [timeout_active_insert]
  | cons cur rest ih =>
      by_cases h : d < (m cur).deadline
      · simp only [timeout_active_insert, if_pos h, List.mem_cons]
      · simp only [timeout_active_insert, if_neg h, List.mem_cons, ih]
        tauto

theorem nodup_timeout_active_insert (m : Nat → timeout_t) (d tid : Nat) :
    ∀ l, l.Nodup → tid ∉ l → (timeout_active_insert m d tid l).Nodup := by
  intro l hnd htid
  induction l with
  | nil => simp [timeout_active_insert]
  | cons cur rest ih =>
      have hcur : cur ≠ tid := fun h => htid (h ▸ List.mem_cons_self cur rest)
      by_cases h : d < (m cur).deadline
      · simp only [timeout_active_insert, if_pos h]
        refine List.nodup_cons.mpr ⟨?_, hnd⟩
        simp only [List.mem_cons]
        rintro (h' | h')
        · exact hcur h'.symm
        · exact htid (List.mem_cons_of_mem _ h')
      · simp only [timeout_active_insert, if_neg h]
        rcases List.nodup_cons.mp hnd with ⟨hcm, hrest⟩
        refine List.nodup_cons.mpr ⟨?_, ih hrest (fun h' => htid (List.mem_cons_of_mem _ h'))⟩
        rw [mem_timeout_active_insert]
        rintro (h' | h')
        · exact hcur h'
        · exact hcm h'

theorem pairwise_timeout_active_insert (m : Nat → timeout_t) (d tid : Nat)
    (hd : (m tid).deadline = d) :
    ∀ l, l.Pairwise (fun a b => (m a).deadline ≤ (m b).deadline) →
      (timeout_active_insert m d tid l).Pairwise
        (fun a b => (m a).deadline ≤ (m b).deadline) := by
  intro l hl
  induction l with
  | nil => simp [timeout_active_insert]
  | cons cur rest ih =>
      rcases List.pairwise_cons.mp hl with ⟨hcur, hrest⟩
      by_cases h : d < (m cur).deadline
      · simp only [timeout_active_insert, if_pos h]
        refine List.pairwise_cons.mpr ⟨?_, hl⟩
        intro x hx
        rcases List.mem_cons.mp hx with rfl | hx
        · exact hd ▸ Nat.le_of_lt h
        · exact hd ▸ Nat.le_of_lt (Nat.lt_of_lt_of_le h (hcur x hx))
      · simp only [timeout_active_insert, if_neg h]
        refine List.pairwise_cons.mpr ⟨?_, ih hrest⟩
        intro x hx
        rcases (mem_timeout_active_insert m d tid rest x).mp hx with rfl | hx
        · exact hd ▸ Nat.le_of_not_lt h
        · exact hcur x hx

theorem timeout_register_preserves_inv (us2ticks : Nat → Nat) (s : TimeoutState)
    (tid time handler arg : Nat) (hinv : TimeoutInv s) :
    (timeout_register us2ticks s tid time handler arg).elim True TimeoutInv := by
  rcases hinv with ⟨hnd, hmem, hsort⟩
  by_cases hcpu : (s.timeouts tid).cpu.isSome
  · simp [timeout_register, hcpu]
  · have htid : tid ∉ s.timeout_active_list := fun h => hcpu ((hmem tid).mp h)
    set d := s.current_clock_tick + us2ticks time with hd
    set newt : timeout_t :=
      { cpu := some (), deadline := d, handler := some handler, arg := some arg } with hnewt
    set m := updT s.timeouts tid newt with hm
    have hmx : ∀ x, x ≠ tid → m x = s.timeouts x := by
      intro x hx
      simp [hm, updT, hx]
    have hmtid : m tid = newt := by
      simp [hm, updT]
    have hstep : timeout_register us2ticks s tid time handler arg =
        some { s with
          timeouts := m,
          timeout_active_list := timeout_active_insert m d tid s.timeout_active_list } := by
      simp [timeout_register, hcpu, hm, hnewt, hd]
    rw [hstep, Option.elim_some]
    refine ⟨?_, ?_, ?_⟩
    · exact nodup_timeout_active_insert m d tid _ hnd htid
    · intro x
      rw [mem_timeout_active_insert]
      by_cases hx : x = tid
      · subst hx
        simp [hmtid]
      · simp only [hx, false_or, hmx x hx]
        exact hmem x
    · have hsort' : s.timeout_active_list.Pairwise
          (fun a b => (m a).deadline ≤ (m b).deadline) := by
        refine List.Pairwise.imp_of_mem ?_ hsort
        intro a b ha hb hab
        have hna : a ≠ tid := fun h => htid (h ▸ ha)
        have hnb : b ≠ tid := fun h => htid (h ▸ hb)
        rw [hmx a hna, hmx b hnb]
        exact hab
      have := pairwise_timeout_active_insert m d tid (by simp [hmtid]) _ hsort'
      simpa [activeSorted] using this

theorem timeout_unregister_preserves_inv (s : TimeoutState) (tid : Nat)
    (hinv : TimeoutInv s) : TimeoutInv (timeout_unregister s tid).2 := by
  rcases hinv with ⟨hnd, hmem, hsort⟩
  by_cases hcpu : (s.timeouts tid).cpu.isNone
  · simpa [timeout_unregister, hcpu] using ⟨hnd, hmem, hsort⟩
  · have hstep : (timeout_unregister s tid).2 =
        { s with
          timeout_active_list := s.timeout_active_list.erase tid,
          timeouts := updT s.timeouts tid timeout_reinitialize } := by
      simp [timeout_unregister, hcpu]
    rw [hstep]
    refine ⟨hnd.erase tid, ?_, ?_⟩
    · intro x
      rw [hnd.mem_erase_iff]
      by_cases hx : x = tid
      · subst hx
        simp [updT, timeout_reinitialize]
      · simp only [updT, hx, if_false, ne_eq, not_false_iff, true_and]
        exact hmem x
    · simp only [activeSorted]
      have herase : (s.timeout_active_list.erase tid).Pairwise
          (fun a b => (s.timeouts a).deadline ≤ (s.timeouts b).deadline) :=
        hsort.sublist (s.timeout_active_list.erase_sublist tid)
      refine List.Pairwise.imp_of_mem ?_ herase
      intro a b ha hb hab
      have hna : a ≠ tid := ((hnd.mem_erase_iff).mp ha).1
      have hnb : b ≠ tid := ((hnd.mem_erase_iff).mp hb).1
      simpa [updT, hna, hnb] using hab

theorem timeoutStep_preserves_inv (us2ticks : Nat → Nat) (s : TimeoutState)
    (op : TimeoutOp) (hinv : TimeoutInv s) :
    (timeoutStep us2ticks s op).elim True TimeoutInv := by
  cases op with
  | reg tid time handler arg =>
      exact timeout_register_preserves_inv us2ticks s tid time handler arg hinv
  | unreg tid =>
      exact timeout_unregister_preserves_inv s tid hinv
  | clockTick tick =>
      rcases hinv with ⟨hnd, hmem, hsort⟩
      exact ⟨hnd, hmem, hsort⟩

theorem runTimeoutOps_inv (us2ticks : Nat → Nat) (ops : List TimeoutOp) :
    (runTimeoutOps us2ticks ops).elim True TimeoutInv := by
  have hinit : TimeoutInv timeout_init_state := by
    refine ⟨List.nodup_nil, ?_, List.Pairwise.nil⟩
    intro tid
    simp [timeout_init_state, timeout_reinitialize]
  suffices h : ∀ (acc : Option TimeoutState), acc.elim True TimeoutInv →
      (ops.foldl (fun acc op => acc.bind (fun s => timeoutStep us2ticks s op)) acc).elim
        True TimeoutInv by
    exact h (some timeout_init_state) hinit
  induction ops with
  | nil => intro acc hacc; exact hacc
  | cons op rest ih =>
      intro acc hacc
      simp only [List.foldl_cons]
      apply ih
      cases acc with
      | none => simp
      | some s => exact timeoutStep_preserves_inv us2ticks s op hacc

/-- Characterisation of the insertion loop: the new timeout lands
immediately in front of the first list entry whose deadline is strictly
greater than the new deadline, i.e. after every entry whose deadline is
less than or equal to it. -/
theorem timeout_active_insert_eq (m : Nat → timeout_t) (d tid : Nat) :
    ∀ l : List Nat,
      timeout_active_insert m d tid l =
        l.takeWhile (fun x => decide ((m x).deadline ≤ d)) ++
          tid :: l.dropWhile (fun x => decide ((m x).deadline ≤ d)) := by
  intro l
  induction l with
  | nil => simp [timeout_active_insert]
  | cons cur rest ih =>
      by_cases h : d < (m cur).deadline
      · have h' : ¬ (m cur).deadline ≤ d := by omega
        simp [timeout_active_insert, h, h']
      · have h' : (m cur).deadline ≤ d := by omega
        simp [timeout_active_insert, h, h', ih]

/-- C2: for every sequence of `timeout_register`/`timeout_unregister`
calls (with the external clock free to advance in between) starting from
the initialized empty per-processor queue, the processor's active
timeout list is sorted ascending by deadline after each call that
completes. -/
theorem timeout_list_sorted_after_calls (us2ticks : Nat → Nat)
    (ops : List TimeoutOp) :
    (runTimeoutOps us2ticks ops).elim True activeSorted := by
  have h := runTimeoutOps_inv us2ticks ops
  cases hrun : runTimeoutOps us2ticks ops with
  | none => simp
  | some s =>
      rw [hrun] at h
      exact h.2.2

/-- C3: `timeout_unregister` returns `true` exactly when the timeout has
an owning processor at the time of the call, and a second
`timeout_unregister` immediately following any first one returns
`false`. -/
theorem timeout_unregister_true_iff_owned (s : TimeoutState) (tid : Nat) :
    (timeout_unregister s tid).1 = (s.timeouts tid).cpu.isSome ∧
    (timeout_unregister (timeout_unregister s tid).2 tid).1 = false := by
  cases hc : (s.timeouts tid).cpu with
  | none =>
      constructor
      · simp [timeout_unregister, hc]
      · simp [timeout_unregister, hc]
  | some u =>
      constructor
      · simp [timeout_unregister, hc]
      · simp [timeout_unregister, hc, updT, timeout_reinitialize]

/-- C4: `timeout_register` takes the fatal halt exactly when the
timeout already has an owning processor, and never when the
owning-processor field is NULL. -/
theorem timeout_register_panics_iff_owned (us2ticks : Nat → Nat)
    (s : TimeoutState) (tid time handler arg : Nat) :
    timeout_register us2ticks s tid time handler arg = none ↔
      (s.timeouts tid).cpu.isSome := by
  cases hc : (s.timeouts tid).cpu with
  | none => simp [timeout_register, hc]
  | some u => simp [timeout_register, hc]

/-- C5: when `timeout_register` completes it has stored the owning
processor, the absolute deadline `current_clock_tick + us2ticks time`,
the handler and the argument into the timeout. -/
theorem timeout_register_sets_fields (us2ticks : Nat → Nat)
    (s : TimeoutState) (tid time handler arg : Nat) :
    (timeout_register us2ticks s tid time handler arg).elim True
      (fun s' => s'.timeouts tid =
        { cpu := some (), deadline := s.current_clock_tick + us2ticks time,
          handler := some handler, arg := some arg }) := by
  cases hc : (s.timeouts tid).cpu with
  | some u => simp [timeout_register, hc]
  | none => simp [timeout_register, hc, updT]

/-- C6: when `timeout_register` completes, the new active list is the
old one split at the first entry whose deadline is strictly greater than
the new deadline, with the new timeout linked in between — so the new
timeout sits behind every entry whose deadline is less than or equal to
its own (first-found, stable insertion point). -/
theorem timeout_register_insert_position (us2ticks : Nat → Nat)
    (s : TimeoutState) (tid time handler arg : Nat) :
    (timeout_register us2ticks s tid time handler arg).elim True
      (fun s' => s'.timeout_active_list =
        s.timeout_active_list.takeWhile
          (fun x => decide ((s'.timeouts x).deadline ≤ (s'.timeouts tid).deadline)) ++
          tid :: s.timeout_active_list.dropWhile
            (fun x => decide ((s'.timeouts x).deadline ≤ (s'.timeouts tid).deadline))) := by
  cases hc : (s.timeouts tid).cpu with
  | some u => simp [timeout_register, hc]
  | none =>
      simp only [timeout_register, hc, Option.isSome_none, Bool.false_eq_true,
        if_false, Option.elim_some]
      have hdl : (updT s.timeouts tid
          { cpu := some (), deadline := s.current_clock_tick + us2ticks time,
            handler := some handler, arg := some arg } tid).deadline =
          s.current_clock_tick + us2ticks time := by
        simp [updT]
      rw [hdl]
      exact timeout_active_insert_eq _ _ tid s.timeout_active_list

/-- C9: whenever `timeout_unregister` returns `false` it has left the
whole state — the timeout's fields and the active list — exactly as it
was before the call. -/
theorem timeout_unregister_false_leaves_unchanged (s : TimeoutState) (tid : Nat)
    (h : (timeout_unregister s tid).1 = false) :
    (timeout_unregister s tid).2 = s := by
  cases hc : (s.timeouts tid).cpu with
  | none => simp [timeout_unregister, hc]
  | some u =>
      exfalso
      rw [timeout_unregister] at h
      simp [hc] at h

/-- Witness for C9 at a concrete input: unregistering a never-registered
timeout from the freshly initialized queue reports `false` and leaves
the state untouched. -/
theorem timeout_unregister_false_leaves_unchanged_witness :
    (timeout_unregister timeout_init_state 0).1 = false ∧
    (timeout_unregister timeout_init_state 0).2 = timeout_init_state :=
  ⟨rfl, timeout_unregister_false_leaves_unchanged timeout_init_state 0 rfl⟩

/-! ## Interpreter lemmas -/

theorem traceCons_trace (pc : Nat) (w : Option (Nat × Nat)) (r : TopHalfResult) :
    (traceCons pc w r).trace = pc :: r.trace := rfl

theorem traceCons_ownership (pc : Nat) (w : Option (Nat × Nat)) (r : TopHalfResult) :
    (traceCons pc w r).ownership = r.ownership := rfl

theorem traceCons_scratch (pc : Nat) (w : Option (Nat × Nat)) (r : TopHalfResult) :
    (traceCons pc w r).scratch = r.scratch := rfl

/-- Past the end of the program the run declines at once, whatever the
fuel. -/
theorem topHalfGo_oob (env : IrqEnv) (cmds : List irq_cmd_t) (scratch : Nat → Nat)
    (pc : Nat) (h : ¬ pc < cmds.length) :
    ∀ fuel, topHalfGo env cmds fuel scratch pc =
      { ownership := .IRQ_DECLINE, scratch := scratch, writes := [], trace := [] } := by
  intro fuel
  cases fuel with
  | zero => rfl
  | succ fuel => simp [topHalfGo, h]

/-- The fuel argument is irrelevant as soon as it covers the remaining
program length: the run consumes at least one command index per step. -/
theorem topHalfGo_fuel_irrel (env : IrqEnv) (cmds : List irq_cmd_t) :
    ∀ fuel fuel' (scratch : Nat → Nat) (pc : Nat),
      cmds.length - pc ≤ fuel → cmds.length - pc ≤ fuel' →
      topHalfGo env cmds fuel scratch pc = topHalfGo env cmds fuel' scratch pc := by
  intro fuel
  induction fuel with
  | zero =>
      intro fuel' scratch pc h h'
      have hp : ¬ pc < cmds.length := by omega
      rw [topHalfGo_oob env cmds scratch pc hp, topHalfGo_oob env cmds scratch pc hp]
  | succ fuel ih =>
      intro fuel' scratch pc h h'
      by_cases hp : pc < cmds.length
      · obtain ⟨f', rfl⟩ : ∃ f', fuel' = f' + 1 := ⟨fuel' - 1, by omega⟩
        simp only [topHalfGo, dif_pos hp]
        cases hcmd : (cmds.get ⟨pc, hp⟩).cmd <;>
          first
            | rfl
            | (congr 1
               exact ih f' _ _ (by omega) (by omega))
            | (by_cases hz : scratch (cmds.get ⟨pc, hp⟩).srcarg = 0 <;>
                simp only [hz, if_pos, if_neg, if_true, if_false] <;>
                (congr 1
                 exact ih f' _ _ (by omega) (by omega)))
      · rw [topHalfGo_oob env cmds scratch pc hp, topHalfGo_oob env cmds scratch pc hp]

/-- Trace shape of a top-half run started at `pc`: every executed index
is at least `pc`, the indices strictly increase (control only moves
forward), and at most `cmds.length - pc` commands execute. -/
theorem topHalfGo_trace_spec (env : IrqEnv) (cmds : List irq_cmd_t) :
    ∀ fuel (scratch : Nat → Nat) (pc : Nat),
      (∀ q ∈ (topHalfGo env cmds fuel scratch pc).trace, pc ≤ q) ∧
      (topHalfGo env cmds fuel scratch pc).trace.Pairwise (· < ·) ∧
      (topHalfGo env cmds fuel scratch pc).trace.length ≤ cmds.length - pc := by
  intro fuel
  induction fuel with
  | zero =>
      intro scratch pc
      refine ⟨?_, ?_, ?_⟩ <;> simp [topHalfGo]
  | succ fuel ih =>
      intro scratch pc
      by_cases hp : pc < cmds.length
      · have key : ∀ (scr : Nat → Nat) (next : Nat), pc + 1 ≤ next →
            (∀ q ∈ pc :: (topHalfGo env cmds fuel scr next).trace, pc ≤ q) ∧
            (pc :: (topHalfGo env cmds fuel scr next).trace).Pairwise (· < ·) ∧
            (pc :: (topHalfGo env cmds fuel scr next).trace).length ≤
              cmds.length - pc := by
          intro scr next hnext
          obtain ⟨ge, pw, ln⟩ := ih scr next
          refine ⟨?_, ?_, ?_⟩
          · intro q hq
            rcases List.mem_cons.mp hq with rfl | hq
            · exact le_refl q
            · have := ge q hq
              omega
          · refine List.pairwise_cons.mpr ⟨?_, pw⟩
            intro q hq
            have := ge q hq
            omega
          · simp only [List.length_cons]
            omega
        simp only [topHalfGo, dif_pos hp]
        cases hcmd : (cmds.get ⟨pc, hp⟩).cmd <;>
          first
            | (exact ⟨fun q hq => by simp at hq; omega, by simp, by simp; omega⟩)
            | (exact key _ _ (by omega))
            | (by_cases hz : scratch (cmds.get ⟨pc, hp⟩).srcarg = 0 <;>
                simp only [hz, if_pos, if_neg, if_true, if_false,
                  not_false_iff] <;>
                exact key _ _ (by omega))
      · rw [topHalfGo_oob env cmds scratch pc hp]
        exact ⟨fun q hq => by simp at hq, by simp, by simp⟩

/-- C7: every top-half program runs as straight-line code whose control
only moves forward — the trace of executed command indices is strictly
increasing — and a program of `cmdcount` commands terminates after at
most `cmdcount` command steps. -/
theorem interp_forward_terminates (env : IrqEnv) (code : irq_code_t)
    (scratch : Nat → Nat) :
    (ipc_irq_top_half env code scratch).trace.Pairwise (· < ·) ∧
    (ipc_irq_top_half env code scratch).trace.length ≤ code.cmdcount := by
  obtain ⟨ge, pw, ln⟩ :=
    topHalfGo_trace_spec env code.cmds code.cmds.length scratch 0
  exact ⟨pw, by simpa [ipc_irq_top_half, irq_code_t.cmdcount] using ln⟩

/-- C1: at a `CMD_PREDICATE` command with source register `srcarg` and
count `value`, a zero source register makes the interpreter skip exactly
the next `value` commands (execution continues at `pc + 1 + value` and no
index in `pc+1 .. pc+value` is ever executed), while any nonzero source
register lets execution continue normally with the very next command. -/
theorem interp_predicate_semantics (env : IrqEnv) (cmds : List irq_cmd_t)
    (scratch : Nat → Nat) (pc : Nat) (h : pc < cmds.length)
    (hc : (cmds.get ⟨pc, h⟩).cmd = irq_cmd_type.CMD_PREDICATE) :
    (scratch (cmds.get ⟨pc, h⟩).srcarg = 0 →
      topHalfFrom env cmds scratch pc =
        traceCons pc none
          (topHalfFrom env cmds scratch (pc + 1 + (cmds.get ⟨pc, h⟩).value)) ∧
      ∀ q ∈ (topHalfFrom env cmds scratch pc).trace,
        q = pc ∨ pc + (cmds.get ⟨pc, h⟩).value < q) ∧
    (scratch (cmds.get ⟨pc, h⟩).srcarg ≠ 0 →
      topHalfFrom env cmds scratch pc =
        traceCons pc none (topHalfFrom env cmds scratch (pc + 1))) := by
  obtain ⟨f, hf⟩ : ∃ f, cmds.length - pc = f + 1 := ⟨cmds.length - pc - 1, by omega⟩
  constructor
  · intro hz
    have heq : topHalfFrom env cmds scratch pc =
        traceCons pc none
          (topHalfFrom env cmds scratch (pc + 1 + (cmds.get ⟨pc, h⟩).value)) := by
      show topHalfGo env cmds (cmds.length - pc) scratch pc = _
      rw [hf]
      simp only [topHalfGo, h, dite_true, hc, hz, eq_self_iff_true, if_true]
      rw [topHalfFrom]
      congr 1
      exact topHalfGo_fuel_irrel env cmds f _ scratch _ (by omega) (by omega)
    refine ⟨heq, ?_⟩
    intro q hq
    rw [heq, traceCons_trace] at hq
    rcases List.mem_cons.mp hq with rfl | hq
    · exact Or.inl rfl
    · refine Or.inr ?_
      have := (topHalfGo_trace_spec env cmds
        (cmds.length - (pc + 1 + (cmds.get ⟨pc, h⟩).value)) scratch
        (pc + 1 + (cmds.get ⟨pc, h⟩).value)).1 q hq
      omega
  · intro hnz
    show topHalfGo env cmds (cmds.length - pc) scratch pc = _
    rw [hf]
    simp only [topHalfGo, h, dite_true, hc, hnz, if_neg, if_false]
    rw [topHalfFrom]
    congr 1
    exact topHalfGo_fuel_irrel env cmds f _ scratch _ (by omega) (by omega)

/-- All-zero device environment used by concrete runs. -/
def envZero : IrqEnv :=
  { pio_read := fun _ _ => 0, mem_read := fun _ _ => 0 }

/-- Three-command program whose head is a predicate over register 0 with
skip count 1. -/
def predDemoCmds : List irq_cmd_t :=
  [{ cmd := .CMD_PREDICATE, addr := 0, value := 1, srcarg := 0, dstarg := 0 },
   { cmd := .CMD_DECLINE, addr := 0, value := 0, srcarg := 0, dstarg := 0 },
   { cmd := .CMD_ACCEPT, addr := 0, value := 0, srcarg := 0, dstarg := 0 }]

/-- Witness for C1 at a concrete input: with register 0 zero, the
predicate at index 0 of `predDemoCmds` continues at index 2, skipping
the one command in between. -/
theorem interp_predicate_semantics_witness :
    topHalfFrom envZero predDemoCmds (fun _ => 0) 0 =
      traceCons 0 none (topHalfFrom envZero predDemoCmds (fun _ => 0) 2) :=
  ((interp_predicate_semantics envZero predDemoCmds (fun _ => 0) 0
    (by decide) rfl).1 rfl).1

/-- Device environment in which a one-byte I/O read of the interrupt
status register address `0x300` yields `0x02`. -/
def ne2kDemoEnv : IrqEnv :=
  { pio_read := fun _ addr => if addr = 0x300 then 0x02 else 0,
    mem_read := fun _ _ => 0 }

/-- The program of C8: read ISR into r0, mask it with `0x7F` into r1,
predicate on r1 with skip count 1, then Decline, then Accept. -/
def ne2kDemoCode : irq_code_t :=
  { cmds :=
    [{ cmd := .CMD_PIO_READ_8, addr := 0x300, value := 0, srcarg := 0, dstarg := 0 },
     { cmd := .CMD_BTEST, addr := 0, value := 0x7F, srcarg := 0, dstarg := 1 },
     { cmd := .CMD_PREDICATE, addr := 0, value := 1, srcarg := 1, dstarg := 0 },
     { cmd := .CMD_DECLINE, addr := 0, value := 0, srcarg := 0, dstarg := 0 },
     { cmd := .CMD_ACCEPT, addr := 0, value := 0, srcarg := 0, dstarg := 0 }] }

/-- Counterexample to C8 as stated: with the ISR read yielding `0x02`,
r1 becomes 2 (nonzero), so under the predicate convention of §4.4 — zero
skips, nonzero executes the following commands normally, the convention
the in-tree `ne2k_cmds` program relies on — the Decline at index 3 is
NOT skipped: the run does not end in Accept with trace `[0, 1, 2, 4]`. -/
theorem interp_ne2k_claimed_accept_refuted :
    ¬ ((ipc_irq_top_half ne2kDemoEnv ne2kDemoCode (fun _ => 0)).ownership =
        irq_ownership_t.IRQ_ACCEPT ∧
      (ipc_irq_top_half ne2kDemoEnv ne2kDemoCode (fun _ => 0)).scratch 0 = 0x02 ∧
      (ipc_irq_top_half ne2kDemoEnv ne2kDemoCode (fun _ => 0)).scratch 1 = 0x02 ∧
      (ipc_irq_top_half ne2kDemoEnv ne2kDemoCode (fun _ => 0)).trace = [0, 1, 2, 4]) := by
  decide

/-- C8 amended: with the ISR read yielding `0x02` the run sets r0 = 2
and r1 = 2, the nonzero predicate source lets the following commands
execute normally, so the Decline at index 3 runs (trace `[0, 1, 2, 3]`,
the Accept at index 4 never executes) and the outcome is Decline; the
Accept-through-skip behaviour belongs to the zero case instead: when the
ISR read yields `0x00` the predicate skips the Decline and the run ends
in Accept with trace `[0, 1, 2, 4]`. -/
theorem interp_ne2k_style_run :
    (ipc_irq_top_half ne2kDemoEnv ne2kDemoCode (fun _ => 0)).ownership =
      irq_ownership_t.IRQ_DECLINE ∧
    (ipc_irq_top_half ne2kDemoEnv ne2kDemoCode (fun _ => 0)).scratch 0 = 0x02 ∧
    (ipc_irq_top_half ne2kDemoEnv ne2kDemoCode (fun _ => 0)).scratch 1 = 0x02 ∧
    (ipc_irq_top_half ne2kDemoEnv ne2kDemoCode (fun _ => 0)).trace = [0, 1, 2, 3] ∧
    (ipc_irq_top_half envZero ne2kDemoCode (fun _ => 0)).ownership =
      irq_ownership_t.IRQ_ACCEPT ∧
    (ipc_irq_top_half envZero ne2kDemoCode (fun _ => 0)).trace = [0, 1, 2, 4] := by
  refine ⟨?_, ?_, ?_, ?_, ?_, ?_⟩ <;> decide

/-! ## Ethernet address lemmas -/

/-- Bitwise or of an aligned value with a value below the alignment is
plain addition. -/
theorem lor_two_pow_add : ∀ (k q r : Nat), r < 2 ^ k → q * 2 ^ k ||| r = q * 2 ^ k + r := by
  intro k
  induction k with
  | zero =>
      intro q r h
      have hr : r = 0 := by omega
      subst hr
      simp
  | succ k ih =>
      intro q r h
      have hbit : ∀ (b : Bool) (n : Nat), Nat.bit b n = 2 * n + b.toNat := by
        intro b n
        cases b <;> simp [Nat.bit]
      have hpow : 2 ^ (k + 1) = 2 ^ k * 2 := by
        rw [pow_succ]
      have h2 : Nat.div2 r < 2 ^ k := by
        rw [Nat.div2_val]
        omega
      have hql : q * 2 ^ (k + 1) = Nat.bit false (q * 2 ^ k) := by
        rw [hbit]
        simp
        rw [hpow]
        ring
      calc q * 2 ^ (k + 1) ||| r
          = Nat.bit false (q * 2 ^ k) ||| Nat.bit (Nat.bodd r) (Nat.div2 r) := by
            rw [← hql, Nat.bit_decomp]
        _ = Nat.bit (false || Nat.bodd r) (q * 2 ^ k ||| Nat.div2 r) :=
            Nat.lor_bit false (q * 2 ^ k) (Nat.bodd r) (Nat.div2 r)
        _ = Nat.bit (Nat.bodd r) (q * 2 ^ k + Nat.div2 r) := by
            rw [Bool.false_or, ih (q) (Nat.div2 r) h2]
        _ = q * 2 ^ (k + 1) + r := by
            rw [hbit]
            have hb := Nat.bodd_add_div2 r
            have hq2 : q * 2 ^ (k + 1) = q * 2 ^ k * 2 := by
              rw [hpow]
              ring
            rw [hq2]
            generalize q * 2 ^ k = m
            omega

/-- The decode loop expressed as positional arithmetic (valid for byte
values, i.e. below 256). -/
theorem eth_addr_decode_eq_sum (b0 b1 b2 b3 b4 b5 : Nat)
    (h0 : b0 < 256) (h1 : b1 < 256) (h2 : b2 < 256)
    (h3 : b3 < 256) (h4 : b4 < 256) (h5 : b5 < 256) :
    eth_addr_decode [b0, b1, b2, b3, b4, b5] =
      b0 * 2 ^ 40 + b1 * 2 ^ 32 + b2 * 2 ^ 24 + b3 * 2 ^ 16 + b4 * 2 ^ 8 + b5 := by
  show (((((0 ||| b0 <<< 40) ||| b1 <<< 32) ||| b2 <<< 24) |||
    b3 <<< 16) ||| b4 <<< 8) ||| b5 <<< 0 = _
  simp only [Nat.shiftLeft_eq, Nat.zero_or, pow_zero, mul_one]
  rw [lor_two_pow_add 40 b0 (b1 * 2 ^ 32) (by norm_num; omega)]
  rw [show b0 * 2 ^ 40 + b1 * 2 ^ 32 = (b0 * 2 ^ 8 + b1) * 2 ^ 32 by ring]
  rw [lor_two_pow_add 32 _ (b2 * 2 ^ 24) (by norm_num; omega)]
  rw [show (b0 * 2 ^ 8 + b1) * 2 ^ 32 + b2 * 2 ^ 24 =
    ((b0 * 2 ^ 8 + b1) * 2 ^ 8 + b2) * 2 ^ 24 by ring]
  rw [lor_two_pow_add 24 _ (b3 * 2 ^ 16) (by norm_num; omega)]
  rw [show ((b0 * 2 ^ 8 + b1) * 2 ^ 8 + b2) * 2 ^ 24 + b3 * 2 ^ 16 =
    (((b0 * 2 ^ 8 + b1) * 2 ^ 8 + b2) * 2 ^ 8 + b3) * 2 ^ 16 by ring]
  rw [lor_two_pow_add 16 _ (b4 * 2 ^ 8) (by norm_num; omega)]
  rw [show (((b0 * 2 ^ 8 + b1) * 2 ^ 8 + b2) * 2 ^ 8 + b3) * 2 ^ 16 + b4 * 2 ^ 8 =
    ((((b0 * 2 ^ 8 + b1) * 2 ^ 8 + b2) * 2 ^ 8 + b3) * 2 ^ 8 + b4) * 2 ^ 8 by ring]
  rw [lor_two_pow_add 8 _ b5 h5]

/-- C10: encoding and decoding of Ethernet addresses are mutually
inverse — `eth_addr_encode` applied to `eth_addr_decode` of any 6-byte
buffer reproduces the buffer, and `eth_addr_decode` applied to
`eth_addr_encode` of any address value that fits in 48 bits reproduces
the value. -/
theorem eth_addr_encode_decode_inverse :
    (∀ bp : List Nat, bp.length = ETH_ADDR_SIZE → (∀ x ∈ bp, x < 256) →
      eth_addr_encode (eth_addr_decode bp) = bp) ∧
    (∀ a : Nat, a < 2 ^ 48 → eth_addr_decode (eth_addr_encode a) = a) := by
  have hmask : ∀ n : Nat, n &&& 255 = n % 256 := by
    intro n
    have h := Nat.and_pow_two_sub_one_eq_mod n 8
    norm_num at h
    exact h
  constructor
  · intro bp hlen hmem
    match bp, hlen with
    | [b0, b1, b2, b3, b4, b5], _ =>
      have h0 : b0 < 256 := hmem b0 (by simp)
      have h1 : b1 < 256 := hmem b1 (by simp)
      have h2 : b2 < 256 := hmem b2 (by simp)
      have h3 : b3 < 256 := hmem b3 (by simp)
      have h4 : b4 < 256 := hmem b4 (by simp)
      have h5 : b5 < 256 := hmem b5 (by simp)
      rw [eth_addr_decode_eq_sum b0 b1 b2 b3 b4 b5 h0 h1 h2 h3 h4 h5]
      show [_, _, _, _, _, _] = _
      simp only [Nat.shiftRight_eq_div_pow, hmask, List.cons.injEq, and_true]
      norm_num
      refine ⟨?_, ?_, ?_, ?_, ?_, ?_⟩ <;> omega
  · intro a ha
    show eth_addr_decode [_, _, _, _, _, _] = a
    simp only [Nat.shiftRight_eq_div_pow, hmask]
    rw [eth_addr_decode_eq_sum _ _ _ _ _ _
      (Nat.mod_lt _ (by norm_num)) (Nat.mod_lt _ (by norm_num))
      (Nat.mod_lt _ (by norm_num)) (Nat.mod_lt _ (by norm_num))
      (Nat.mod_lt _ (by norm_num)) (Nat.mod_lt _ (by norm_num))]
    norm_num
    omega

/-- Witness for C10 at concrete inputs: a round trip through a concrete
6-byte buffer and through a concrete 48-bit address value. -/
theorem eth_addr_encode_decode_inverse_witness :
    eth_addr_encode (eth_addr_decode [1, 2, 3, 4, 5, 6]) = [1, 2, 3, 4, 5, 6] ∧
    eth_addr_decode (eth_addr_encode 0xdeadbeef) = 0xdeadbeef :=
  ⟨eth_addr_encode_decode_inverse.1 [1, 2, 3, 4, 5, 6] (by decide) (by decide),
   eth_addr_encode_decode_inverse.2 0xdeadbeef (by norm_num)⟩
